import Mathlib

/-!
Shallow embedding of the Instagram unshredder (`unshredder.py`).

The script is Python 2: integer `/` is floor division, which matters for the
stripe averages.  Pixels are RGBA integer quadruples; the averaged stripe
entries are Python floats over exact small integers, modelled in `ℚ`.
Fallible operations (indexing an empty deque, looking up a missing dict key)
are modelled with `Option`, `none` standing for the raised exception.
The mutable `shreds_dict` is threaded explicitly: `unshred` returns both the
final sequence and the final state of the caller-supplied mapping.
-/

namespace Unshredder

/-- RGBA pixel as delivered by the image library: four integer channels. -/
abbrev Pixel := ℤ × ℤ × ℤ × ℤ

/-- Entry of an averaged stripe: the Python code stores a 4-tuple of floats
(plus the constant alpha 255); the values are exact quotients of small
integers, modelled in `ℚ`. -/
abbrev AvgPixel := ℚ × ℚ × ℚ × ℚ

/-- Modelled from the spec: the external image-codec collaborator delivers a
2-D grid of RGB(A) pixel values addressable by `(x, y)` with `0 ≤ x < width`,
`0 ≤ y < height` (spec §6).  `data` is the list of rows. -/
structure PixelGrid where
  width : Nat
  height : Nat
  data : List (List Pixel)
deriving DecidableEq

/-- A grid is well formed when it really has `height` rows of `width` pixels. -/
def PixelGrid.WF (g : PixelGrid) : Prop :=
  g.data.length = g.height ∧ ∀ row ∈ g.data, row.length = g.width

instance (g : PixelGrid) : Decidable g.WF := by
  unfold PixelGrid.WF; infer_instance

/-- Pixel access `self.data[x, y]`.  Out-of-range access raises in Python; the
claims only ever use in-range access, where the default is irrelevant. -/
def getPixel (g : PixelGrid) (x y : Nat) : Pixel :=
  (g.data.getD y []).getD x (0, 0, 0, 0)

/-- `Shred._column`: the pixels along column `x`, for `y` from 0 to height. -/
def column (g : PixelGrid) (x : Nat) : List Pixel :=
  (List.range g.height).map (fun y => getPixel g x y)

/-- Length of the shortest list, 0 for no lists: the length of Python's
`zip(*cols)`. -/
def minLen (ls : List (List Pixel)) : Nat :=
  match ls with
  | [] => 0
  | l :: rest => rest.foldl (fun m x => min m x.length) l.length

/-- Python's `zip(*cols)`: the list of simultaneous rows of `cols`, truncated
to the shortest column. -/
def pyZip (ls : List (List Pixel)) : List (List Pixel) :=
  (List.range (minLen ls)).map (fun i => ls.map (fun l => l.getD i (0, 0, 0, 0)))

/-- `Shred._stripe(start_pixel, num_pixels)`: average `num` columns starting at
`start`.  Python 2 floor-divides the integer channel sums by the column count
(`float(r/col_count)`), so each channel is the floor quotient, then cast to
float; alpha is the constant 255. -/
def stripe (g : PixelGrid) (start num : Nat) : List AvgPixel :=
  let cols := (List.range num).map (fun n => column g (start + n))
  (pyZip cols).map (fun pixels =>
    let r := (pixels.map (fun p => p.1)).sum
    let gr := (pixels.map (fun p => p.2.1)).sum
    let b := (pixels.map (fun p => p.2.2.1)).sum
    let cnt : ℤ := (pixels.length : ℤ)
    (((r.fdiv cnt : ℤ) : ℚ), ((gr.fdiv cnt : ℤ) : ℚ), ((b.fdiv cnt : ℤ) : ℚ), 255))

/-- A shred: its pixel grid and the two cached edge stripes. -/
structure Shred where
  image : PixelGrid
  left_stripe : List AvgPixel
  right_stripe : List AvgPixel
deriving DecidableEq

/-- `self.width = image.size[0]`. -/
def Shred.width (s : Shred) : Nat := s.image.width

/-- `self.height = image.size[1]`. -/
def Shred.height (s : Shred) : Nat := s.image.height

/-- `Shred.__init__`: cache the two stripes; the left stripe averages columns
`0..3`, the right stripe columns `width-4..width-1`. -/
def mkShred (image : PixelGrid) : Shred :=
  { image := image
    left_stripe := stripe image 0 4
    right_stripe := stripe image (image.width - 4) 4 }

/-- Modelled from the spec: `image.crop((x0, y0, x1, y1))` of the external
image collaborator, as the sub-grid of the pixels of `g` inside the box —
clamped to the grid, so a box reaching past the right edge yields a narrower
slice (spec §4.1: the final slice may be narrower than `W`). -/
def crop (g : PixelGrid) (x0 y0 x1 y1 : Nat) : PixelGrid :=
  { width := min x1 g.width - x0
    height := min y1 g.height - y0
    data := ((g.data.drop y0).take (y1 - y0)).map (fun r => (r.drop x0).take (x1 - x0)) }

/-- `split(image)`: one shred per `x` in `range(0, image_width, 32)`, keyed by
its leftmost x coordinate, in ascending key order (an association list stands
for the Python dict). -/
def split (image : PixelGrid) : List (Nat × Shred) :=
  (List.range ((image.width + 31) / 32)).map
    (fun i => (32 * i, mkShred (crop image (32 * i) 0 (32 * i + 32) image.height)))

/-- Sum of absolute RGB channel differences of one pair of stripe entries. -/
def rowAbsDiff (p q : AvgPixel) : ℚ :=
  |p.1 - q.1| + |p.2.1 - q.2.1| + |p.2.2.1 - q.2.2.1|

/-- `score(stripe1, stripe2)`: running sum, over `zip(stripe1, stripe2)`, of
the absolute RGB differences.  `zip` truncates to the shorter stripe. -/
def score (stripe1 stripe2 : List AvgPixel) : ℚ :=
  (stripe1.zip stripe2).foldl (fun scr pq => scr + rowAbsDiff pq.1 pq.2) 0

/-- Which end of the deque a candidate would be attached to. -/
inductive Side where
  | left
  | right
deriving DecidableEq

/-- The `scores` table of `best_match`: for each entry `(k, v)` of `scram`, the
candidate `(k, left)` scored by `score(leftmost, v.right_stripe)` and the
candidate `(k, right)` scored by `score(rightmost, v.left_stripe)`. -/
def candidates (leftmost rightmost : List AvgPixel) :
    List (Nat × Shred) → List ((Nat × Side) × ℚ)
  | [] => []
  | kv :: rest =>
      ((kv.1, Side.left), score leftmost kv.2.right_stripe) ::
      ((kv.1, Side.right), score rightmost kv.2.left_stripe) ::
      candidates leftmost rightmost rest

/-- `min(scores, key=scores.get)`: the key of a minimum-score entry, the first
one in iteration order on ties; `none` on an empty table. -/
def minByScore (l : List ((Nat × Side) × ℚ)) : Option (Nat × Side) :=
  match l with
  | [] => none
  | c :: cs => some ((cs.foldl (fun b x => if x.2 < b.2 then x else b) c).1)

/-- `best_match(unscram, scram)`: score both edges of the deque against every
remaining shred and return the key and side of the best match.  `none` models
the `IndexError` on an empty deque. -/
def best_match (unscram : List Shred) (scram : List (Nat × Shred)) :
    Option (Nat × Side) :=
  match unscram.head?, unscram.getLast? with
  | some first, some last =>
      minByScore (candidates first.left_stripe last.right_stripe scram)
  | _, _ => none

/-- `scram[key]` on the association list standing for the dict. -/
def lookupKey (k : Nat) : List (Nat × Shred) → Option Shred
  | [] => none
  | kv :: rest => if kv.1 = k then some kv.2 else lookupKey k rest

/-- `del scram[key]`: drop the (unique) entry with the given key. -/
def removeKey (k : Nat) : List (Nat × Shred) → List (Nat × Shred)
  | [] => []
  | kv :: rest => if kv.1 = k then rest else kv :: removeKey k rest

/-- The `while scram:` loop of `unshred`, with a fuel argument bounding the
number of iterations (each iteration removes one entry, so fuel
`scram.length` is always enough — proved below).  `none` models a raised
exception, which never occurs on reachable states. -/
def unshredLoop : Nat → List Shred → List (Nat × Shred) →
    Option (List Shred × List (Nat × Shred))
  | _, unscram, [] => some (unscram, [])
  | 0, _, _ :: _ => none
  | fuel + 1, unscram, c :: cs =>
      match best_match unscram (c :: cs) with
      | none => none
      | some (key, side) =>
          match lookupKey key (c :: cs) with
          | none => none
          | some s =>
              unshredLoop fuel
                (match side with
                 | Side.left => s :: unscram
                 | Side.right => unscram ++ [s])
                (removeKey key (c :: cs))

/-- `unshred(shreds_dict)`: seed the deque with `scram[0]`, delete it, then run
the loop.  The result pairs the final deque with the final state of the
caller's mapping (the code mutates `shreds_dict` in place); `none` models the
`KeyError` when key 0 is absent. -/
def unshred (shreds_dict : List (Nat × Shred)) :
    Option (List Shred × List (Nat × Shred)) :=
  match lookupKey 0 shreds_dict with
  | none => none
  | some s => unshredLoop (removeKey 0 shreds_dict).length [s] (removeKey 0 shreds_dict)

/-- Instrumented variant of the loop: the list of `(unscram, scram)` states it
passes through, the seeded state first and one further state per executed
iteration. -/
def unshredTraceLoop : Nat → List Shred → List (Nat × Shred) →
    Option (List (List Shred × List (Nat × Shred)))
  | _, unscram, [] => some [(unscram, [])]
  | 0, _, _ :: _ => none
  | fuel + 1, unscram, c :: cs =>
      match best_match unscram (c :: cs) with
      | none => none
      | some (key, side) =>
          match lookupKey key (c :: cs) with
          | none => none
          | some s =>
              (unshredTraceLoop fuel
                (match side with
                 | Side.left => s :: unscram
                 | Side.right => unscram ++ [s])
                (removeKey key (c :: cs))).map
                (fun tr => (unscram, c :: cs) :: tr)

/-- The states `unshred` passes through, from the seeded state on. -/
def unshredTrace (shreds_dict : List (Nat × Shred)) :
    Option (List (List Shred × List (Nat × Shred))) :=
  match lookupKey 0 shreds_dict with
  | none => none
  | some s =>
      unshredTraceLoop (removeKey 0 shreds_dict).length [s] (removeKey 0 shreds_dict)

/-- Modelled from the spec: `Image.new("RGBA", (w, h))` of the external image
collaborator — a `w × h` grid of blank pixels. -/
def newImage (w h : Nat) : PixelGrid :=
  { width := w, height := h, data := List.replicate h (List.replicate w (0, 0, 0, 0)) }

/-- One row of a paste: replace the slice starting at `x0` by `src`. -/
def pasteRow (dst src : List Pixel) (x0 : Nat) : List Pixel :=
  dst.take x0 ++ src ++ dst.drop (x0 + src.length)

/-- Rows of a paste at vertical offset 0. -/
def pasteRows : List (List Pixel) → List (List Pixel) → Nat → List (List Pixel)
  | [], _, _ => []
  | d :: ds, [], _ => d :: ds
  | d :: ds, s :: ss, x0 => pasteRow d s x0 :: pasteRows ds ss x0

/-- Modelled from the spec: `img.paste(src, (x0, 0))` of the external image
collaborator — copy `src` verbatim into `dst` with its top-left corner at
`(x0, 0)` (spec §4.5: pixels are copied verbatim, no blending). -/
def pasteGrid (dst src : PixelGrid) (x0 : Nat) : PixelGrid :=
  { width := dst.width, height := dst.height, data := pasteRows dst.data src.data x0 }

/-- The paste loop of `glue`: paste each shred at the running `x_dest`. -/
def glueAux : PixelGrid → Nat → List Shred → PixelGrid
  | img, _, [] => img
  | img, xdest, s :: rest => glueAux (pasteGrid img s.image xdest) (xdest + s.width) rest

/-- `glue(shreds)`: new image of width the sum of the shred widths and height
`shreds[0].height`, the shreds pasted left to right.  `none` models the
`IndexError` on an empty sequence. -/
def glue : List Shred → Option PixelGrid
  | [] => none
  | s0 :: rest =>
      some (glueAux (newImage (((s0 :: rest).map Shred.width).sum) s0.height) 0 (s0 :: rest))

end Unshredder

namespace Unshredder

/-! ### Scorer lemmas -/

/-- Zero entry used as the `getD` default in row-indexed statements. -/
def zeroAvg : AvgPixel := (0, 0, 0, 0)

theorem score_foldl (l : List (AvgPixel × AvgPixel)) (init : ℚ) :
    l.foldl (fun scr pq => scr + rowAbsDiff pq.1 pq.2) init =
      init + (l.map (fun pq => rowAbsDiff pq.1 pq.2)).sum := by
  induction l generalizing init with
  | nil => simp
  | cons x xs ih => simp [ih, add_assoc]

theorem score_eq_sum (a b : List AvgPixel) :
    score a b = ((a.zip b).map (fun pq => rowAbsDiff pq.1 pq.2)).sum := by
  simp [score, score_foldl]

theorem zip_map_sum_eq (a b : List AvgPixel) :
    ((a.zip b).map (fun pq => rowAbsDiff pq.1 pq.2)).sum =
      ∑ i ∈ Finset.range (min a.length b.length),
        rowAbsDiff (a.getD i zeroAvg) (b.getD i zeroAvg) := by
  induction a generalizing b with
  | nil => simp
  | cons x xs ih =>
    cases b with
    | nil => simp
    | cons y ys =>
      have h : min (x :: xs).length (y :: ys).length = min xs.length ys.length + 1 := by
        simp [Nat.succ_min_succ]
      rw [h, Finset.sum_range_succ']
      simp [ih ys, add_comm]

theorem rowAbsDiff_nonneg (p q : AvgPixel) : 0 ≤ rowAbsDiff p q := by
  unfold rowAbsDiff; positivity

theorem rowAbsDiff_self (p : AvgPixel) : rowAbsDiff p p = 0 := by
  simp [rowAbsDiff]

theorem score_nonneg (a b : List AvgPixel) : 0 ≤ score a b := by
  rw [score_eq_sum]
  apply List.sum_nonneg
  intro q hq
  obtain ⟨pq, _, rfl⟩ := List.mem_map.mp hq
  exact rowAbsDiff_nonneg _ _

theorem score_self (s : List AvgPixel) : score s s = 0 := by
  rw [score_eq_sum, zip_map_sum_eq]
  exact Finset.sum_eq_zero (fun i _ => rowAbsDiff_self _)

/-- C4: for equal-length signatures, `score` is the sum over all rows of the
absolute per-channel RGB differences; it is non-negative, and every signature
scores 0 against itself. -/
theorem score_spec (a b : List AvgPixel) (h : a.length = b.length) :
    score a b =
      (∑ i ∈ Finset.range a.length,
        rowAbsDiff (a.getD i zeroAvg) (b.getD i zeroAvg)) ∧
    0 ≤ score a b ∧ ∀ sg : List AvgPixel, score sg sg = 0 := by
  refine ⟨?_, score_nonneg a b, fun sg => score_self sg⟩
  rw [score_eq_sum, zip_map_sum_eq, h, Nat.min_self]

/-- Witness for C4 at concrete signatures of equal length 1. -/
theorem score_spec_witness :
    ([((1:ℚ), 2, 3, 255)] : List AvgPixel).length = ([((4:ℚ), 2, 3, 255)] : List AvgPixel).length ∧
    (score [((1:ℚ), 2, 3, 255)] [((4:ℚ), 2, 3, 255)] =
      (∑ i ∈ Finset.range ([((1:ℚ), 2, 3, 255)] : List AvgPixel).length,
        rowAbsDiff (([((1:ℚ), 2, 3, 255)] : List AvgPixel).getD i zeroAvg)
          (([((4:ℚ), 2, 3, 255)] : List AvgPixel).getD i zeroAvg)) ∧
      0 ≤ score [((1:ℚ), 2, 3, 255)] [((4:ℚ), 2, 3, 255)] ∧
      ∀ sg : List AvgPixel, score sg sg = 0) :=
  ⟨rfl, score_spec [((1:ℚ), 2, 3, 255)] [((4:ℚ), 2, 3, 255)] rfl⟩

/-- C6 counterexample: on signatures of unequal length (2 versus 1) the scorer
does not fail — it returns the score 3 of the one common row, silently
ignoring the second row of the longer signature. -/
theorem score_unequal_counterexample :
    ([((0:ℚ), 0, 0, 255), ((255:ℚ), 255, 255, 255)] : List AvgPixel).length ≠
      ([((3:ℚ), 0, 0, 255)] : List AvgPixel).length ∧
    score [((0:ℚ), 0, 0, 255), ((255:ℚ), 255, 255, 255)] [((3:ℚ), 0, 0, 255)] = 3 := by
  constructor
  · simp
  · rw [score_eq_sum]
    norm_num [rowAbsDiff, abs_of_nonpos]

/-- C6 as amended: on signatures of any lengths, `score` silently compares the
common prefix only — it equals the row-difference sum over `min` of the two
lengths, and no error is raised (the function is total). -/
theorem score_truncates (a b : List AvgPixel) :
    score a b =
      ∑ i ∈ Finset.range (min a.length b.length),
        rowAbsDiff (a.getD i zeroAvg) (b.getD i zeroAvg) := by
  rw [score_eq_sum, zip_map_sum_eq]

/-- C7: running the assembler on an empty shred mapping fails (the `KeyError`
from `scram[0]`, modelled as `none`) rather than returning an empty
sequence. -/
theorem unshred_empty_fails : unshred [] = none := rfl

end Unshredder

namespace Unshredder

/-! ### Association-list lemmas -/

theorem lookupKey_decomp {k : Nat} {l : List (Nat × Shred)} {s : Shred}
    (h : lookupKey k l = some s) :
    ∃ l1 l2, l = l1 ++ (k, s) :: l2 ∧ removeKey k l = l1 ++ l2 := by
  induction l with
  | nil => simp [lookupKey] at h
  | cons kv rest ih =>
    obtain ⟨k0, v⟩ := kv
    by_cases hk : k0 = k
    · subst hk
      rw [lookupKey, if_pos (rfl : (k0, v).1 = k0)] at h
      injection h with h
      subst h
      exact ⟨[], rest, rfl, by rw [removeKey, if_pos (rfl : (k0, v).1 = k0)]; rfl⟩
    · rw [lookupKey, if_neg hk] at h
      obtain ⟨l1, l2, heq, hrem⟩ := ih h
      exact ⟨(k0, v) :: l1, l2, by simp [heq], by simp [removeKey, hk, hrem]⟩

theorem removeKey_length {k : Nat} {l : List (Nat × Shred)} {s : Shred}
    (h : lookupKey k l = some s) : l.length = (removeKey k l).length + 1 := by
  obtain ⟨l1, l2, heq, hrem⟩ := lookupKey_decomp h
  subst heq
  simp [hrem]
  omega

theorem values_perm {k : Nat} {l : List (Nat × Shred)} {s : Shred}
    (h : lookupKey k l = some s) :
    (l.map Prod.snd).Perm (s :: (removeKey k l).map Prod.snd) := by
  obtain ⟨l1, l2, heq, hrem⟩ := lookupKey_decomp h
  subst heq
  rw [hrem]
  simp only [List.map_append, List.map_cons]
  exact List.perm_middle

theorem lookupKey_isSome_of_mem {l : List (Nat × Shred)} {kv : Nat × Shred}
    (h : kv ∈ l) : ∃ s, lookupKey kv.1 l = some s := by
  induction l with
  | nil => simp at h
  | cons kv0 rest ih =>
    by_cases hk : kv0.1 = kv.1
    · exact ⟨kv0.2, by rw [lookupKey, if_pos hk]⟩
    · rcases List.mem_cons.mp h with heq | hmem
      · rw [heq] at hk; exact absurd rfl hk
      · obtain ⟨s, hs⟩ := ih hmem
        exact ⟨s, by rw [lookupKey, if_neg hk, hs]⟩

theorem lookupKey_eq_of_mem_nodup {l : List (Nat × Shred)} {kv : Nat × Shred}
    (h : kv ∈ l) (hnd : (l.map Prod.fst).Nodup) : lookupKey kv.1 l = some kv.2 := by
  induction l with
  | nil => simp at h
  | cons kv0 rest ih =>
    simp only [List.map_cons, List.nodup_cons] at hnd
    rcases List.mem_cons.mp h with heq | hmem
    · subst heq
      rw [lookupKey, if_pos rfl]
    · have hk : kv0.1 ≠ kv.1 := by
        intro he
        exact hnd.1 (by rw [he]; exact List.mem_map.mpr ⟨kv, hmem, rfl⟩)
      rw [lookupKey, if_neg hk]
      exact ih hmem hnd.2

/-! ### Candidate-table lemmas -/

theorem candidates_length (ls rs : List AvgPixel) (scram : List (Nat × Shred)) :
    (candidates ls rs scram).length = 2 * scram.length := by
  induction scram with
  | nil => rfl
  | cons kv rest ih => simp [candidates, ih]; omega

theorem mem_candidates_of_mem {ls rs : List AvgPixel} {scram : List (Nat × Shred)}
    {kv : Nat × Shred} (h : kv ∈ scram) :
    ((kv.1, Side.left), score ls kv.2.right_stripe) ∈ candidates ls rs scram ∧
    ((kv.1, Side.right), score rs kv.2.left_stripe) ∈ candidates ls rs scram := by
  induction scram with
  | nil => simp at h
  | cons kv0 rest ih =>
    rcases List.mem_cons.mp h with heq | hmem
    · subst heq
      exact ⟨List.mem_cons_self _ _,
        List.mem_cons_of_mem _ (List.mem_cons_self _ _)⟩
    · obtain ⟨h1, h2⟩ := ih hmem
      exact ⟨List.mem_cons_of_mem _ (List.mem_cons_of_mem _ h1),
        List.mem_cons_of_mem _ (List.mem_cons_of_mem _ h2)⟩

theorem candidates_mem_inv {ls rs : List AvgPixel} {scram : List (Nat × Shred)}
    {c : (Nat × Side) × ℚ} (h : c ∈ candidates ls rs scram) :
    ∃ kv ∈ scram,
      c = ((kv.1, Side.left), score ls kv.2.right_stripe) ∨
      c = ((kv.1, Side.right), score rs kv.2.left_stripe) := by
  induction scram with
  | nil => simp [candidates] at h
  | cons kv0 rest ih =>
    rw [candidates] at h
    rcases List.mem_cons.mp h with heq | h2
    · exact ⟨kv0, List.mem_cons_self _ _, Or.inl heq⟩
    · rcases List.mem_cons.mp h2 with heq | h3
      · exact ⟨kv0, List.mem_cons_self _ _, Or.inr heq⟩
      · obtain ⟨kv, hkv, hc⟩ := ih h3
        exact ⟨kv, List.mem_cons_of_mem _ hkv, hc⟩

/-! ### Minimum-selection lemmas -/

theorem foldl_min_mem (cs : List ((Nat × Side) × ℚ)) (c : (Nat × Side) × ℚ) :
    cs.foldl (fun b x => if x.2 < b.2 then x else b) c = c ∨
      cs.foldl (fun b x => if x.2 < b.2 then x else b) c ∈ cs := by
  induction cs generalizing c with
  | nil => exact Or.inl rfl
  | cons x xs ih =>
    rw [List.foldl_cons]
    rcases ih (if x.2 < c.2 then x else c) with h | h
    · rw [h]
      by_cases hx : x.2 < c.2
      · right; rw [if_pos hx]; exact List.mem_cons_self _ _
      · left; rw [if_neg hx]
    · right; exact List.mem_cons_of_mem _ h

theorem foldl_min_le (cs : List ((Nat × Side) × ℚ)) (c : (Nat × Side) × ℚ) :
    (cs.foldl (fun b x => if x.2 < b.2 then x else b) c).2 ≤ c.2 ∧
      ∀ d ∈ cs, (cs.foldl (fun b x => if x.2 < b.2 then x else b) c).2 ≤ d.2 := by
  induction cs generalizing c with
  | nil => exact ⟨le_refl _, by simp⟩
  | cons x xs ih =>
    rw [List.foldl_cons]
    obtain ⟨h1, h2⟩ := ih (if x.2 < c.2 then x else c)
    have hle : (if x.2 < c.2 then x else c).2 ≤ c.2 := by
      by_cases hx : x.2 < c.2
      · rw [if_pos hx]; exact le_of_lt hx
      · rw [if_neg hx]
    have hlex : (if x.2 < c.2 then x else c).2 ≤ x.2 := by
      by_cases hx : x.2 < c.2
      · rw [if_pos hx]
      · rw [if_neg hx]; exact le_of_not_lt hx
    refine ⟨le_trans h1 hle, ?_⟩
    intro d hd
    rcases List.mem_cons.mp hd with heq | hd2
    · subst heq; exact le_trans h1 hlex
    · exact h2 d hd2

theorem minByScore_spec {l : List ((Nat × Side) × ℚ)} (h : l ≠ []) :
    ∃ c, c ∈ l ∧ minByScore l = some c.1 ∧ ∀ d ∈ l, c.2 ≤ d.2 := by
  cases l with
  | nil => exact absurd rfl h
  | cons c cs =>
    refine ⟨cs.foldl (fun (b x : (Nat × Side) × ℚ) => if x.2 < b.2 then x else b) c,
      ?_, rfl, ?_⟩
    · rcases foldl_min_mem cs c with heq | hmem
      · rw [heq]; exact List.mem_cons_self _ _
      · exact List.mem_cons_of_mem _ hmem
    · intro d hd
      obtain ⟨h1, h2⟩ := foldl_min_le cs c
      rcases List.mem_cons.mp hd with heq | hd2
      · subst heq; exact h1
      · exact h2 d hd2

theorem best_match_spec {unscram : List Shred} {scram : List (Nat × Shred)}
    (hu : unscram ≠ []) (hs : scram ≠ []) :
    ∃ f l c, unscram.head? = some f ∧ unscram.getLast? = some l ∧
      c ∈ candidates f.left_stripe l.right_stripe scram ∧
      best_match unscram scram = some c.1 ∧
      ∀ d ∈ candidates f.left_stripe l.right_stripe scram, c.2 ≤ d.2 := by
  obtain ⟨f, rest, rfl⟩ := List.exists_cons_of_ne_nil hu
  have hl : (f :: rest).getLast? = some ((f :: rest).getLast (by simp)) :=
    List.getLast?_eq_getLast _ _
  have hcne : candidates f.left_stripe ((f :: rest).getLast (by simp)).right_stripe scram ≠ [] := by
    cases scram with
    | nil => exact absurd rfl hs
    | cons kv r => simp [candidates]
  obtain ⟨c, hc, hmin, hle⟩ := minByScore_spec hcne
  refine ⟨f, (f :: rest).getLast (by simp), c, rfl, hl, hc, ?_, hle⟩
  simp only [best_match, List.head?_cons, hl]
  exact hmin

end Unshredder

namespace Unshredder

/-! ### Assembler-loop lemmas -/

/-- Moving the looked-up shred from the mapping to either end of the sequence
preserves the combined multiset of shreds. -/
theorem step_perm {unscram : List Shred} {scram : List (Nat × Shred)}
    {key : Nat} {side : Side} {s : Shred} (hs : lookupKey key scram = some s) :
    ((match side with
      | Side.left => s :: unscram
      | Side.right => unscram ++ [s]) ++ (removeKey key scram).map Prod.snd).Perm
      (unscram ++ scram.map Prod.snd) := by
  have hv := values_perm hs
  cases side
  · exact List.perm_middle.symm.trans (List.Perm.append_left unscram hv).symm
  · rw [List.append_assoc, List.singleton_append]
    exact (List.Perm.append_left unscram hv).symm

/-- The assembly loop, run with enough fuel from a non-empty sequence, always
succeeds, empties the mapping, and returns a permutation of all shreds. -/
theorem unshredLoop_spec :
    ∀ (fuel : Nat) (unscram : List Shred) (scram : List (Nat × Shred)),
      scram.length ≤ fuel → unscram ≠ [] →
      ∃ seq, unshredLoop fuel unscram scram = some (seq, []) ∧
        seq.Perm (unscram ++ scram.map Prod.snd) := by
  intro fuel
  induction fuel with
  | zero =>
    intro unscram scram hlen hu
    have hnil : scram = [] := List.length_eq_zero.mp (Nat.le_zero.mp hlen)
    subst hnil
    exact ⟨unscram, rfl, by simp⟩
  | succ fuel ih =>
    intro unscram scram hlen hu
    cases scram with
    | nil => exact ⟨unscram, rfl, by simp⟩
    | cons c cs =>
      obtain ⟨f, l, cand, hf, hl, hc, hbm, hle⟩ :=
        @best_match_spec unscram (c :: cs) hu (by simp)
      obtain ⟨⟨key, side⟩, sc⟩ := cand
      have hbm2 : best_match unscram (c :: cs) = some (key, side) := hbm
      obtain ⟨kv, hkv, hck⟩ := candidates_mem_inv hc
      have hkey : key = kv.1 := by
        rcases hck with hck | hck
        · exact congrArg (fun p => p.1.1) hck
        · exact congrArg (fun p => p.1.1) hck
      obtain ⟨s, hs⟩ := lookupKey_isSome_of_mem hkv
      rw [← hkey] at hs
      have hlen2 : (removeKey key (c :: cs)).length ≤ fuel := by
        have := removeKey_length hs
        simp only [List.length_cons] at this hlen
        omega
      have hu2 : (match side with
          | Side.left => s :: unscram
          | Side.right => unscram ++ [s]) ≠ [] := by
        cases side
        · simp
        · simp
      obtain ⟨seq, hrec, hperm⟩ := ih _ (removeKey key (c :: cs)) hlen2 hu2
      refine ⟨seq, ?_, hperm.trans (step_perm hs)⟩
      simp only [unshredLoop, hbm2, hs]
      exact hrec

/-- The instrumented loop agrees with the plain loop and its trace records one
state per mapping entry plus the final state; every recorded state carries the
full multiset of shreds split between sequence and mapping. -/
theorem unshredTraceLoop_spec :
    ∀ (fuel : Nat) (unscram : List Shred) (scram : List (Nat × Shred)),
      scram.length ≤ fuel → unscram ≠ [] →
      ∃ tr seq,
        unshredTraceLoop fuel unscram scram = some tr ∧
        unshredLoop fuel unscram scram = some (seq, []) ∧
        tr.length = scram.length + 1 ∧
        tr.head? = some (unscram, scram) ∧
        tr.getLast? = some (seq, []) ∧
        ∀ st ∈ tr, (st.1 ++ st.2.map Prod.snd).Perm (unscram ++ scram.map Prod.snd) := by
  intro fuel
  induction fuel with
  | zero =>
    intro unscram scram hlen hu
    have hnil : scram = [] := List.length_eq_zero.mp (Nat.le_zero.mp hlen)
    subst hnil
    refine ⟨[(unscram, [])], unscram, rfl, rfl, rfl, rfl, rfl, ?_⟩
    intro st hst
    rcases List.mem_singleton.mp hst with rfl
    simp
  | succ fuel ih =>
    intro unscram scram hlen hu
    cases scram with
    | nil =>
      refine ⟨[(unscram, [])], unscram, rfl, rfl, rfl, rfl, rfl, ?_⟩
      intro st hst
      rcases List.mem_singleton.mp hst with rfl
      simp
    | cons c cs =>
      obtain ⟨f, l, cand, hf, hl, hc, hbm, hle⟩ :=
        @best_match_spec unscram (c :: cs) hu (by simp)
      obtain ⟨⟨key, side⟩, sc⟩ := cand
      have hbm2 : best_match unscram (c :: cs) = some (key, side) := hbm
      obtain ⟨kv, hkv, hck⟩ := candidates_mem_inv hc
      have hkey : key = kv.1 := by
        rcases hck with hck | hck
        · exact congrArg (fun p => p.1.1) hck
        · exact congrArg (fun p => p.1.1) hck
      obtain ⟨s, hs⟩ := lookupKey_isSome_of_mem hkv
      rw [← hkey] at hs
      have hlen2 : (removeKey key (c :: cs)).length ≤ fuel := by
        have := removeKey_length hs
        simp only [List.length_cons] at this hlen
        omega
      have hu2 : (match side with
          | Side.left => s :: unscram
          | Side.right => unscram ++ [s]) ≠ [] := by
        cases side
        · simp
        · simp
      obtain ⟨tr, seq, htr, hloop, hlen3, hhead, hlast, hinv⟩ :=
        ih _ (removeKey key (c :: cs)) hlen2 hu2
      refine ⟨(unscram, c :: cs) :: tr, seq, ?_, ?_, ?_, rfl, ?_, ?_⟩
      · simp only [unshredTraceLoop, hbm2, hs, htr]
        rfl
      · simp only [unshredLoop, hbm2, hs]
        exact hloop
      · have := removeKey_length hs
        simp only [List.length_cons] at this ⊢
        rw [hlen3]
        omega
      · have htrne : tr ≠ [] := by
          intro hnil
          rw [hnil] at hlen3
          simp at hlen3
        obtain ⟨st0, tr0, rfl⟩ := List.exists_cons_of_ne_nil htrne
        rw [List.getLast?_cons_cons]
        exact hlast
      · intro st hst
        rcases List.mem_cons.mp hst with rfl | hst2
        · simp
        · exact ((hinv st hst2).trans (step_perm hs))

end Unshredder

namespace Unshredder


/-- Concrete shred with distinct edge stripes, used by witnesses. -/
def shredA : Shred := ⟨⟨0, 0, []⟩, [((0:ℚ), 0, 0, 255)], [((10:ℚ), 0, 0, 255)]⟩

/-- Second concrete shred used by witnesses. -/
def shredB : Shred := ⟨⟨0, 0, []⟩, [((11:ℚ), 0, 0, 255)], [((0:ℚ), 0, 0, 255)]⟩

/-- C1: at every assembly step with a non-empty remaining mapping, the
assembler builds exactly two candidates per remaining shred — attach-left
scored by `score(leftmost.left_stripe, r.right_stripe)` and attach-right
scored by `score(rightmost.right_stripe, r.left_stripe)`, `2 × |remaining|`
candidates in all — selects a candidate whose score is minimal over the whole
table, and the loop then inserts the winning shred at the front of the
sequence when the winning side is left and at the back when it is right. -/
theorem best_match_step (unscram : List Shred) (scram : List (Nat × Shred))
    (hu : unscram ≠ []) (hs : scram ≠ [])
    (hnd : (scram.map Prod.fst).Nodup) :
    ∃ f l key side s,
      unscram.head? = some f ∧ unscram.getLast? = some l ∧
      (candidates f.left_stripe l.right_stripe scram).length = 2 * scram.length ∧
      (∀ kv ∈ scram,
        ((kv.1, Side.left), score f.left_stripe kv.2.right_stripe) ∈
          candidates f.left_stripe l.right_stripe scram ∧
        ((kv.1, Side.right), score l.right_stripe kv.2.left_stripe) ∈
          candidates f.left_stripe l.right_stripe scram) ∧
      best_match unscram scram = some (key, side) ∧
      lookupKey key scram = some s ∧
      (∀ d ∈ candidates f.left_stripe l.right_stripe scram,
        (match side with
         | Side.left => score f.left_stripe s.right_stripe
         | Side.right => score l.right_stripe s.left_stripe) ≤ d.2) ∧
      ∀ fuel, unshredLoop (fuel + 1) unscram scram =
        unshredLoop fuel
          (match side with
           | Side.left => s :: unscram
           | Side.right => unscram ++ [s])
          (removeKey key scram) := by
  obtain ⟨f, l, cand, hf, hl, hc, hbm, hle⟩ := @best_match_spec unscram scram hu hs
  obtain ⟨⟨key, side⟩, sc⟩ := cand
  have hbm2 : best_match unscram scram = some (key, side) := hbm
  obtain ⟨kv, hkv, hck⟩ := candidates_mem_inv hc
  have hkey : key = kv.1 := by
    rcases hck with hck | hck
    · exact congrArg (fun p => p.1.1) hck
    · exact congrArg (fun p => p.1.1) hck
  have hlook : lookupKey key scram = some kv.2 := by
    rw [hkey]
    exact lookupKey_eq_of_mem_nodup hkv hnd
  rcases hck with hck | hck
  · have hside : side = Side.left := congrArg (fun p => p.1.2) hck
    subst hside
    have hsc : sc = score f.left_stripe kv.2.right_stripe := congrArg Prod.snd hck
    refine ⟨f, l, key, Side.left, kv.2, hf, hl, candidates_length _ _ _,
      (fun kv2 h2 => mem_candidates_of_mem h2), hbm2, hlook, ?_, ?_⟩
    · intro d hd
      exact hsc ▸ hle d hd
    · intro fuel
      cases scram with
      | nil => exact absurd rfl hs
      | cons c cs => simp only [unshredLoop, hbm2, hlook]
  · have hside : side = Side.right := congrArg (fun p => p.1.2) hck
    subst hside
    have hsc : sc = score l.right_stripe kv.2.left_stripe := congrArg Prod.snd hck
    refine ⟨f, l, key, Side.right, kv.2, hf, hl, candidates_length _ _ _,
      (fun kv2 h2 => mem_candidates_of_mem h2), hbm2, hlook, ?_, ?_⟩
    · intro d hd
      exact hsc ▸ hle d hd
    · intro fuel
      cases scram with
      | nil => exact absurd rfl hs
      | cons c cs => simp only [unshredLoop, hbm2, hlook]

/-- Witness for C1 on a one-element deque and one remaining shred. -/
theorem best_match_step_witness :
    ([shredA] : List Shred) ≠ [] ∧ ([(5, shredB)] : List (Nat × Shred)) ≠ [] ∧
    (([(5, shredB)] : List (Nat × Shred)).map Prod.fst).Nodup ∧
    (∃ f l key side s,
      ([shredA] : List Shred).head? = some f ∧
      ([shredA] : List Shred).getLast? = some l ∧
      (candidates f.left_stripe l.right_stripe [(5, shredB)]).length =
        2 * ([(5, shredB)] : List (Nat × Shred)).length ∧
      (∀ kv ∈ ([(5, shredB)] : List (Nat × Shred)),
        ((kv.1, Side.left), score f.left_stripe kv.2.right_stripe) ∈
          candidates f.left_stripe l.right_stripe [(5, shredB)] ∧
        ((kv.1, Side.right), score l.right_stripe kv.2.left_stripe) ∈
          candidates f.left_stripe l.right_stripe [(5, shredB)]) ∧
      best_match [shredA] [(5, shredB)] = some (key, side) ∧
      lookupKey key [(5, shredB)] = some s ∧
      (∀ d ∈ candidates f.left_stripe l.right_stripe [(5, shredB)],
        (match side with
         | Side.left => score f.left_stripe s.right_stripe
         | Side.right => score l.right_stripe s.left_stripe) ≤ d.2) ∧
      ∀ fuel, unshredLoop (fuel + 1) [shredA] [(5, shredB)] =
        unshredLoop fuel
          (match side with
           | Side.left => s :: [shredA]
           | Side.right => [shredA] ++ [s])
          (removeKey key [(5, shredB)])) :=
  ⟨by decide, by decide, by decide,
    best_match_step [shredA] [(5, shredB)] (by decide) (by decide) (by decide)⟩

/-- C2: on any shred mapping holding the seed key 0, the assembler terminates
with the mapping empty and a sequence that is a permutation of all input
shreds (each one exactly once); its trace holds one seeded state plus one
state per loop iteration — `N` states, hence exactly `N - 1` best-match
steps for `N` shreds — and at every recorded intermediate state the sequence
and the remaining mapping together carry exactly the input multiset. -/
theorem unshred_complete (d : List (Nat × Shred)) (s : Shred)
    (h : lookupKey 0 d = some s) :
    ∃ seq tr,
      unshred d = some (seq, []) ∧
      seq.Perm (d.map Prod.snd) ∧
      unshredTrace d = some tr ∧
      tr.length = d.length ∧
      tr.getLast? = some (seq, []) ∧
      ∀ st ∈ tr, (st.1 ++ st.2.map Prod.snd).Perm (d.map Prod.snd) := by
  have hv := values_perm h
  obtain ⟨tr, seq, htr, hloop, hlen, hhead, hlast, hinv⟩ :=
    unshredTraceLoop_spec (removeKey 0 d).length [s] (removeKey 0 d) le_rfl (by simp)
  have hperm0 : ([s] ++ (removeKey 0 d).map Prod.snd).Perm (d.map Prod.snd) := by
    rw [List.singleton_append]
    exact hv.symm
  obtain ⟨seq2, hloop2, hperm2⟩ :=
    unshredLoop_spec (removeKey 0 d).length [s] (removeKey 0 d) le_rfl (by simp)
  rw [hloop] at hloop2
  have hseq : seq = seq2 := congrArg Prod.fst (Option.some.inj hloop2)
  have hperm : seq.Perm ([s] ++ (removeKey 0 d).map Prod.snd) := by
    rw [hseq]
    exact hperm2
  refine ⟨seq, tr, ?_, hperm.trans hperm0, ?_, ?_, hlast, ?_⟩
  · simp only [unshred, h]
    exact hloop
  · simp only [unshredTrace, h]
    exact htr
  · rw [hlen]
    have := removeKey_length h
    omega
  · intro st hst
    exact (hinv st hst).trans hperm0

/-- Witness for C2 on a two-shred mapping. -/
theorem unshred_complete_witness :
    lookupKey 0 [(0, shredA), (5, shredB)] = some shredA ∧
    (∃ seq tr,
      unshred [(0, shredA), (5, shredB)] = some (seq, []) ∧
      seq.Perm (([(0, shredA), (5, shredB)] : List (Nat × Shred)).map Prod.snd) ∧
      unshredTrace [(0, shredA), (5, shredB)] = some tr ∧
      tr.length = ([(0, shredA), (5, shredB)] : List (Nat × Shred)).length ∧
      tr.getLast? = some (seq, []) ∧
      ∀ st ∈ tr, (st.1 ++ st.2.map Prod.snd).Perm
        (([(0, shredA), (5, shredB)] : List (Nat × Shred)).map Prod.snd)) :=
  ⟨rfl, unshred_complete [(0, shredA), (5, shredB)] shredA rfl⟩

/-- C9: on a mapping holding exactly one shred, the assembler performs zero
best-match steps — the trace holds only the seeded state — and returns that
shred alone, with the mapping emptied. -/
theorem unshred_single (s : Shred) :
    unshred [(0, s)] = some ([s], []) ∧ unshredTrace [(0, s)] = some [([s], [])] :=
  ⟨rfl, rfl⟩

/-- C10: the assembler consumes its argument mapping: seeded from the entry
under key 0, it returns with the caller-supplied mapping emptied, the seed
shred placed in the returned sequence. -/
theorem unshred_consumes (d : List (Nat × Shred)) (s : Shred)
    (h : lookupKey 0 d = some s) :
    ∃ seq, unshred d = some (seq, []) ∧ s ∈ seq := by
  obtain ⟨seq, hloop, hperm⟩ :=
    unshredLoop_spec (removeKey 0 d).length [s] (removeKey 0 d) le_rfl (by simp)
  refine ⟨seq, ?_, ?_⟩
  · simp only [unshred, h]
    exact hloop
  · exact hperm.symm.subset (by simp)

/-- Witness for C10 on a two-shred mapping. -/
theorem unshred_consumes_witness :
    lookupKey 0 [(0, shredB), (9, shredA)] = some shredB ∧
    (∃ seq, unshred [(0, shredB), (9, shredA)] = some (seq, []) ∧ shredB ∈ seq) :=
  ⟨rfl, unshred_consumes [(0, shredB), (9, shredA)] shredB rfl⟩

end Unshredder

namespace Unshredder

/-! ### Stripe lemmas -/

theorem getD_map_range {α : Type} (f : Nat → α) {n i : Nat} (h : i < n) (d : α) :
    ((List.range n).map f).getD i d = f i := by
  rw [List.getD_eq_getElem?_getD, List.getElem?_map, List.getElem?_range h]
  rfl

theorem sum_map_range {M : Type} [AddCommMonoid M] (f : Nat → M) (n : Nat) :
    ((List.range n).map f).sum = ∑ i ∈ Finset.range n, f i := by
  induction n with
  | zero => simp
  | succ n ih => rw [List.range_succ, Finset.sum_range_succ]; simp [ih]

theorem column_length (g : PixelGrid) (x : Nat) : (column g x).length = g.height := by
  simp [column]

theorem column_getD (g : PixelGrid) (x : Nat) {y : Nat} (hy : y < g.height) :
    (column g x).getD y (0, 0, 0, 0) = getPixel g x y :=
  getD_map_range _ hy _

theorem stripe_length (g : PixelGrid) (start : Nat) :
    (stripe g start 4).length = g.height := by
  simp only [stripe, List.length_map, pyZip, List.length_range]
  have : (List.range 4).map (fun n => column g (start + n)) =
      [column g start, column g (start + 1), column g (start + 2), column g (start + 3)] := by
    simp [List.range_succ]
  rw [this]
  simp [minLen, column_length]

theorem stripe_getD (g : PixelGrid) (start : Nat) {y : Nat} (hy : y < g.height) :
    (stripe g start 4).getD y zeroAvg =
      ( (((∑ j ∈ Finset.range 4, (getPixel g (start + j) y).1).fdiv 4 : ℤ) : ℚ),
        (((∑ j ∈ Finset.range 4, (getPixel g (start + j) y).2.1).fdiv 4 : ℤ) : ℚ),
        (((∑ j ∈ Finset.range 4, (getPixel g (start + j) y).2.2.1).fdiv 4 : ℤ) : ℚ),
        255 ) := by
  have hcols : (List.range 4).map (fun n => column g (start + n)) =
      [column g start, column g (start + 1), column g (start + 2), column g (start + 3)] := by
    simp [List.range_succ]
  have hmin : minLen [column g start, column g (start + 1),
      column g (start + 2), column g (start + 3)] = g.height := by
    simp [minLen, column_length]
  simp only [stripe, pyZip, hcols, hmin, List.map_map]
  rw [getD_map_range _ hy zeroAvg]
  simp only [Function.comp, List.map_cons, List.map_nil,
    column_getD g start hy, column_getD g (start + 1) hy,
    column_getD g (start + 2) hy, column_getD g (start + 3) hy,
    List.sum_cons, List.sum_nil, List.length_cons, List.length_nil,
    Finset.sum_range_succ, Finset.sum_range_zero,
    add_zero, zero_add, Nat.add_zero, Nat.cast_ofNat, ← add_assoc]
  norm_num

end Unshredder

namespace Unshredder

/-- Concrete 4×1 grid whose red channel sums to 1 across the 4 columns. -/
def gridC3 : PixelGrid :=
  ⟨4, 1, [[((1:ℤ), 0, 0, 255), (0, 0, 0, 255), (0, 0, 0, 255), (0, 0, 0, 255)]]⟩

/-- C3 counterexample: on a 4-wide, 1-tall shred whose red channel sums to 1,
the stored left-signature red value is 0 (the Python 2 floor quotient 1 // 4),
while the exact arithmetic mean of the red channel over the 4 columns is 1/4;
the claimed equality with the exact floating-point mean fails. -/
theorem stripe_not_exact_mean :
    ((mkShred gridC3).left_stripe.getD 0 zeroAvg).1 = 0 ∧
    ((∑ j ∈ Finset.range 4, (getPixel gridC3 j 0).1 : ℤ) : ℚ) / 4 = 1 / 4 ∧
    (0 : ℚ) ≠ 1 / 4 := by
  refine ⟨by decide, ?_, by norm_num⟩
  norm_num [Finset.sum_range_succ, getPixel, gridC3]

/-- C3 as amended: each channel of the signature entry at row `y` is the
integer-truncated (floor) quotient of the channel sum over the `k = 4`
nearest columns by 4, represented as a float — not the exact mean — with the
left signature reading columns `0..3`, the right signature reading columns
`W-4..W-1`, and the alpha component forced to 255; each signature has one
entry per row. -/
theorem stripe_floor_mean (g : PixelGrid) (hw : 4 ≤ g.width) (y : Nat)
    (hy : y < g.height) :
    (mkShred g).left_stripe.length = g.height ∧
    (mkShred g).right_stripe.length = g.height ∧
    (mkShred g).left_stripe.getD y zeroAvg =
      ( (((∑ j ∈ Finset.range 4, (getPixel g j y).1).fdiv 4 : ℤ) : ℚ),
        (((∑ j ∈ Finset.range 4, (getPixel g j y).2.1).fdiv 4 : ℤ) : ℚ),
        (((∑ j ∈ Finset.range 4, (getPixel g j y).2.2.1).fdiv 4 : ℤ) : ℚ),
        255 ) ∧
    (mkShred g).right_stripe.getD y zeroAvg =
      ( (((∑ j ∈ Finset.range 4, (getPixel g (g.width - 4 + j) y).1).fdiv 4 : ℤ) : ℚ),
        (((∑ j ∈ Finset.range 4, (getPixel g (g.width - 4 + j) y).2.1).fdiv 4 : ℤ) : ℚ),
        (((∑ j ∈ Finset.range 4, (getPixel g (g.width - 4 + j) y).2.2.1).fdiv 4 : ℤ) : ℚ),
        255 ) := by
  refine ⟨stripe_length g 0, stripe_length g (g.width - 4), ?_,
    stripe_getD g (g.width - 4) hy⟩
  have h := stripe_getD g 0 hy
  simpa using h

/-- Witness for the amended C3 on the concrete 4×1 grid, row 0. -/
theorem stripe_floor_mean_witness :
    4 ≤ gridC3.width ∧ 0 < gridC3.height ∧
    ((mkShred gridC3).left_stripe.length = gridC3.height ∧
     (mkShred gridC3).right_stripe.length = gridC3.height ∧
     (mkShred gridC3).left_stripe.getD 0 zeroAvg =
       ( (((∑ j ∈ Finset.range 4, (getPixel gridC3 j 0).1).fdiv 4 : ℤ) : ℚ),
         (((∑ j ∈ Finset.range 4, (getPixel gridC3 j 0).2.1).fdiv 4 : ℤ) : ℚ),
         (((∑ j ∈ Finset.range 4, (getPixel gridC3 j 0).2.2.1).fdiv 4 : ℤ) : ℚ),
         255 ) ∧
     (mkShred gridC3).right_stripe.getD 0 zeroAvg =
       ( (((∑ j ∈ Finset.range 4, (getPixel gridC3 (gridC3.width - 4 + j) 0).1).fdiv 4 : ℤ) : ℚ),
         (((∑ j ∈ Finset.range 4, (getPixel gridC3 (gridC3.width - 4 + j) 0).2.1).fdiv 4 : ℤ) : ℚ),
         (((∑ j ∈ Finset.range 4, (getPixel gridC3 (gridC3.width - 4 + j) 0).2.2.1).fdiv 4 : ℤ) : ℚ),
         255 )) :=
  ⟨by decide, by decide, stripe_floor_mean gridC3 (by decide) 0 (by decide)⟩

end Unshredder

namespace Unshredder

/-! ### Splitter lemmas -/

theorem split_length (image : PixelGrid) :
    (split image).length = (image.width + 31) / 32 := by
  simp [split]

theorem split_key (image : PixelGrid) {i : Nat} (hi : i < (split image).length) :
    ((split image).map Prod.fst).getD i 0 = 32 * i := by
  have hi2 : i < (image.width + 31) / 32 := split_length image ▸ hi
  simp only [split, List.map_map]
  rw [getD_map_range _ hi2]
  rfl

theorem split_width (image : PixelGrid) {i : Nat} (hi : i < (split image).length) :
    ((split image).map (fun p => p.2.width)).getD i 0 =
      min 32 (image.width - 32 * i) := by
  have hi2 : i < (image.width + 31) / 32 := split_length image ▸ hi
  simp only [split, List.map_map]
  rw [getD_map_range _ hi2]
  show (mkShred (crop image (32 * i) 0 (32 * i + 32) image.height)).width = _
  simp only [mkShred, Shred.width, crop]
  omega

theorem sum_min_32 : ∀ (n W : Nat), W ≤ 32 * n → 32 * n < W + 32 →
    ∑ i ∈ Finset.range n, min 32 (W - 32 * i) = W := by
  intro n
  induction n with
  | zero =>
    intro W h1 h2
    simp at h1 ⊢
    omega
  | succ n ih =>
    intro W h1 h2
    rw [Finset.sum_range_succ]
    have hmid : ∀ i ∈ Finset.range n, min 32 (W - 32 * i) = 32 := by
      intro i hi
      rw [Finset.mem_range] at hi
      omega
    rw [Finset.sum_congr rfl hmid, Finset.sum_const, Finset.card_range, smul_eq_mul]
    omega

theorem split_width_sum (image : PixelGrid) :
    ((split image).map (fun p => p.2.width)).sum = image.width := by
  simp only [split, List.map_map]
  rw [sum_map_range]
  have hterm : ∀ i ∈ Finset.range ((image.width + 31) / 32),
      ((fun p : Nat × Shred => p.2.width) ∘
        (fun i => (32 * i, mkShred (crop image (32 * i) 0 (32 * i + 32) image.height)))) i =
        min 32 (image.width - 32 * i) := by
    intro i hi
    show (mkShred (crop image (32 * i) 0 (32 * i + 32) image.height)).width = _
    simp only [mkShred, Shred.width, crop]
    omega
  rw [Finset.sum_congr rfl hterm]
  apply sum_min_32 <;> omega

/-- C5: the splitter cuts one shred per 32-pixel offset — `ceil(W/32)` of them
(characterized by `W ≤ 32n < W + 32`), keyed by leftmost x-coordinate
`0, 32, 64, …` — whose widths are `min 32 (W - 32i)`; the widths sum to `W`,
the final slice is the narrower `W mod 32` when `W` is not a multiple of 32,
and every source column `x < W` falls in the x-range of exactly one shred. -/
theorem split_partition (image : PixelGrid) :
    image.width ≤ 32 * (split image).length ∧
    32 * (split image).length < image.width + 32 ∧
    (∀ i, i < (split image).length →
      ((split image).map Prod.fst).getD i 0 = 32 * i) ∧
    (∀ i, i < (split image).length →
      ((split image).map (fun p => p.2.width)).getD i 0 =
        min 32 (image.width - 32 * i)) ∧
    ((split image).map (fun p => p.2.width)).sum = image.width ∧
    (image.width % 32 ≠ 0 →
      ((split image).map (fun p => p.2.width)).getD ((split image).length - 1) 0 =
        image.width % 32 ∧ image.width % 32 < 32) ∧
    (∀ x, x < image.width → ∃ i, i < (split image).length ∧
      ((split image).map Prod.fst).getD i 0 ≤ x ∧
      x < ((split image).map Prod.fst).getD i 0 +
        ((split image).map (fun p => p.2.width)).getD i 0 ∧
      ∀ j, j < (split image).length →
        ((split image).map Prod.fst).getD j 0 ≤ x →
        x < ((split image).map Prod.fst).getD j 0 +
          ((split image).map (fun p => p.2.width)).getD j 0 → j = i) := by
  have hlen := split_length image
  refine ⟨by omega, by omega, fun i hi => split_key image hi,
    fun i hi => split_width image hi, split_width_sum image, ?_, ?_⟩
  · intro hmod
    have hpos : 0 < (split image).length := by omega
    have hl : (split image).length - 1 < (split image).length := by omega
    rw [split_width image hl]
    constructor
    · omega
    · omega
  · intro x hx
    have hi : x / 32 < (split image).length := by omega
    refine ⟨x / 32, hi, ?_, ?_, ?_⟩
    · rw [split_key image hi]
      omega
    · rw [split_key image hi, split_width image hi]
      omega
    · intro j hj h1 h2
      rw [split_key image hj] at h1
      rw [split_key image hj, split_width image hj] at h2
      omega

end Unshredder

namespace Unshredder

/-! ### Compositor lemmas -/

theorem getD_of_le {α : Type} (l : List α) {n : Nat} (d : α) (h : l.length ≤ n) :
    l.getD n d = d := by
  rw [List.getD_eq_getElem?_getD, List.getElem?_eq_none h]
  rfl

theorem getD_mem {α : Type} (l : List α) {n : Nat} (d : α) (h : n < l.length) :
    l.getD n d ∈ l := by
  rw [List.getD_eq_getElem?_getD, List.getElem?_eq_getElem h]
  exact List.getElem_mem _

theorem pasteRow_length (dst src : List Pixel) (x0 : Nat)
    (h : x0 + src.length ≤ dst.length) :
    (pasteRow dst src x0).length = dst.length := by
  simp [pasteRow]
  omega

theorem pasteRow_getD_left (dst src : List Pixel) (x0 : Nat) {x : Nat} (d : Pixel)
    (hx : x < x0) (hx0 : x0 ≤ dst.length) :
    (pasteRow dst src x0).getD x d = dst.getD x d := by
  rw [pasteRow, List.getD_eq_getElem?_getD, List.getD_eq_getElem?_getD]
  rw [List.getElem?_append, List.length_append, List.length_take]
  rw [if_pos (by omega)]
  rw [List.getElem?_append, List.length_take, if_pos (by omega)]
  rw [List.getElem?_take, if_pos hx]

theorem pasteRow_getD_mid (dst src : List Pixel) (x0 : Nat) {dx : Nat} (d : Pixel)
    (hdx : dx < src.length) (hx0 : x0 ≤ dst.length) :
    (pasteRow dst src x0).getD (x0 + dx) d = src.getD dx d := by
  rw [pasteRow, List.getD_eq_getElem?_getD, List.getD_eq_getElem?_getD]
  rw [List.getElem?_append, List.length_append, List.length_take]
  rw [if_pos (by omega)]
  rw [List.getElem?_append, List.length_take]
  rw [if_neg (by omega)]
  have hsub : x0 + dx - min x0 dst.length = dx := by omega
  rw [hsub]

theorem pasteRows_length : ∀ (dst src : List (List Pixel)) (x0 : Nat),
    (pasteRows dst src x0).length = dst.length
  | [], _, _ => rfl
  | _ :: _, [], _ => rfl
  | d :: ds, s :: ss, x0 => by
      simp only [pasteRows, List.length_cons, pasteRows_length ds ss x0]

theorem pasteRows_getD : ∀ (dst src : List (List Pixel)) (x0 y : Nat),
    src.length ≤ dst.length →
    (pasteRows dst src x0).getD y [] =
      if y < src.length then pasteRow (dst.getD y []) (src.getD y []) x0
      else dst.getD y []
  | [], src, x0, y, h => by
      have hnil : src = [] := List.length_eq_zero.mp (Nat.le_zero.mp h)
      subst hnil
      simp [pasteRows]
  | d :: ds, [], x0, y, h => by
      simp [pasteRows]
  | d :: ds, s :: ss, x0, 0, h => by
      simp [pasteRows]
  | d :: ds, s :: ss, x0, y + 1, h => by
      simp only [pasteRows, List.getD_cons_succ]
      rw [pasteRows_getD ds ss x0 y (by simpa using h)]
      simp only [List.length_cons, Nat.add_lt_add_iff_right]

theorem pasteRows_row_length : ∀ (dst src : List (List Pixel)) (x0 W : Nat),
    (∀ row ∈ dst, row.length = W) →
    (∀ row ∈ src, x0 + row.length ≤ W) →
    ∀ row ∈ pasteRows dst src x0, row.length = W
  | [], _, _, _, _, _ => by
      intro row hr
      simp [pasteRows] at hr
  | d :: ds, [], x0, W, hd, _ => by
      intro row hr
      exact hd row hr
  | d :: ds, s :: ss, x0, W, hd, hs => by
      intro row hr
      rcases List.mem_cons.mp hr with heq | hmem
      · subst heq
        rw [pasteRow_length]
        · exact hd d (List.mem_cons_self _ _)
        · rw [hd d (List.mem_cons_self _ _)]
          exact hs s (List.mem_cons_self _ _)
      · exact pasteRows_row_length ds ss x0 W
          (fun r hr2 => hd r (List.mem_cons_of_mem _ hr2))
          (fun r hr2 => hs r (List.mem_cons_of_mem _ hr2)) row hmem

theorem glueAux_width : ∀ (shreds : List Shred) (img : PixelGrid) (x0 : Nat),
    (glueAux img x0 shreds).width = img.width
  | [], _, _ => rfl
  | s :: rest, img, x0 => glueAux_width rest (pasteGrid img s.image x0) (x0 + s.width)

theorem glueAux_height : ∀ (shreds : List Shred) (img : PixelGrid) (x0 : Nat),
    (glueAux img x0 shreds).height = img.height
  | [], _, _ => rfl
  | s :: rest, img, x0 => glueAux_height rest (pasteGrid img s.image x0) (x0 + s.width)

end Unshredder

namespace Unshredder

theorem glueAux_pix : ∀ (shreds : List Shred) (img : PixelGrid) (x0 : Nat),
    img.data.length = img.height →
    (∀ row ∈ img.data, row.length = img.width) →
    (∀ s ∈ shreds, s.image.WF ∧ s.image.height = img.height) →
    x0 + ((shreds.map Shred.width).sum) ≤ img.width →
    (∀ x y, x < x0 → getPixel (glueAux img x0 shreds) x y = getPixel img x y) ∧
    (∀ i (hi : i < shreds.length) (dx y : Nat),
      dx < (shreds.get ⟨i, hi⟩).width → y < img.height →
      getPixel (glueAux img x0 shreds)
          (x0 + ((shreds.take i).map Shred.width).sum + dx) y =
        getPixel (shreds.get ⟨i, hi⟩).image dx y)
  | [], img, x0, _, _, _, _ => by
      constructor
      · intro x y _
        rfl
      · intro i hi
        exact absurd hi (Nat.not_lt_zero i)
  | s :: rest, img, x0, H1, H2, H3, H4 => by
      obtain ⟨hWF, hH⟩ := H3 s (List.mem_cons_self _ _)
      obtain ⟨hslen, hsrow⟩ := hWF
      have hsum : x0 + (s.width + ((rest.map Shred.width).sum)) ≤ img.width := by
        simpa using H4
      have hx0w : x0 + s.width ≤ img.width := by omega
      have hd1 : (pasteGrid img s.image x0).data.length = (pasteGrid img s.image x0).height := by
        show (pasteRows img.data s.image.data x0).length = img.height
        rw [pasteRows_length]
        exact H1
      have hd2 : ∀ row ∈ (pasteGrid img s.image x0).data,
          row.length = (pasteGrid img s.image x0).width := by
        show ∀ row ∈ pasteRows img.data s.image.data x0, row.length = img.width
        apply pasteRows_row_length img.data s.image.data x0 img.width H2
        intro row hr
        rw [hsrow row hr]
        exact hx0w
      have hsrclen : s.image.data.length ≤ img.data.length := by
        rw [hslen, hH, H1]
      have H3r : ∀ t ∈ rest, t.image.WF ∧ t.image.height = (pasteGrid img s.image x0).height :=
        fun t ht => H3 t (List.mem_cons_of_mem _ ht)
      have H4r : (x0 + s.width) + ((rest.map Shred.width).sum) ≤ (pasteGrid img s.image x0).width := by
        show _ ≤ img.width
        omega
      obtain ⟨iha, ihb⟩ := glueAux_pix rest (pasteGrid img s.image x0) (x0 + s.width) hd1 hd2 H3r H4r
      have hpleft : ∀ x y, x < x0 → getPixel (pasteGrid img s.image x0) x y = getPixel img x y := by
        intro x y hx
        show ((pasteRows img.data s.image.data x0).getD y []).getD x _ =
          (img.data.getD y []).getD x _
        rw [pasteRows_getD _ _ _ y hsrclen]
        by_cases hy : y < s.image.data.length
        · rw [if_pos hy]
          have hylen : y < img.data.length := by omega
          have hrowmem : img.data.getD y [] ∈ img.data := getD_mem _ _ hylen
          apply pasteRow_getD_left _ _ _ _ hx
          rw [H2 _ hrowmem]
          omega
        · rw [if_neg hy]
      have hpmid : ∀ dx y, dx < s.width → y < img.height →
          getPixel (pasteGrid img s.image x0) (x0 + dx) y = getPixel s.image dx y := by
        intro dx y hdx hy
        show ((pasteRows img.data s.image.data x0).getD y []).getD (x0 + dx) _ =
          (s.image.data.getD y []).getD dx _
        rw [pasteRows_getD _ _ _ y hsrclen]
        have hy2 : y < s.image.data.length := by
          rw [hslen, hH]
          exact hy
        rw [if_pos hy2]
        have hylen : y < img.data.length := by omega
        have hrowmem : img.data.getD y [] ∈ img.data := getD_mem _ _ hylen
        apply pasteRow_getD_mid
        · have hmem2 : s.image.data.getD y [] ∈ s.image.data := getD_mem _ _ hy2
          rw [hsrow _ hmem2]
          exact hdx
        · rw [H2 _ hrowmem]
          omega
      constructor
      · intro x y hx
        rw [glueAux]
        rw [iha x y (by omega)]
        exact hpleft x y hx
      · intro i hi dx y hdx hy
        cases i with
        | zero =>
          rw [glueAux]
          have hidx : x0 + ((((s :: rest).take 0).map Shred.width).sum) + dx = x0 + dx := by
            simp
          rw [hidx]
          have hdx2 : dx < s.width := hdx
          rw [iha (x0 + dx) y (by omega)]
          exact hpmid dx y hdx2 hy
        | succ i =>
          rw [glueAux]
          have hi2 : i < rest.length := by
            simpa using Nat.lt_of_succ_lt_succ hi
          have hidx : x0 + ((((s :: rest).take (i + 1)).map Shred.width).sum) + dx
              = (x0 + s.width) + (((rest.take i).map Shred.width).sum) + dx := by
            rw [List.take_succ_cons]
            simp
            omega
          rw [hidx]
          exact ihb i hi2 dx y hdx hy

end Unshredder

namespace Unshredder

/-- C8: the compositor pastes the shreds left to right at cumulative x-offsets
into one grid of width the sum of the shred widths and height `H`, copying
pixels verbatim: the output pixel at `(offset_i + dx, y)` equals pixel
`(dx, y)` of shred `i`.  In particular, for 3 shreds of widths 32, 32, 10 and
height 64, the output is 74 × 64 and output pixel `(40, y)` equals pixel
`(8, y)` of the second shred. -/
theorem glue_spec :
    (∀ (shreds : List Shred) (H : Nat), shreds ≠ [] →
      (∀ s ∈ shreds, s.image.WF) → (∀ s ∈ shreds, s.image.height = H) →
      ∃ g, glue shreds = some g ∧
        g.width = ((shreds.map Shred.width).sum) ∧ g.height = H ∧
        ∀ i (hi : i < shreds.length) (dx y : Nat),
          dx < (shreds.get ⟨i, hi⟩).width → y < H →
          getPixel g ((((shreds.take i).map Shred.width).sum) + dx) y =
            getPixel (shreds.get ⟨i, hi⟩).image dx y) ∧
    (∀ s1 s2 s3 : Shred, s1.image.WF → s2.image.WF → s3.image.WF →
      s1.width = 32 → s2.width = 32 → s3.width = 10 →
      s1.image.height = 64 → s2.image.height = 64 → s3.image.height = 64 →
      ∃ g, glue [s1, s2, s3] = some g ∧ g.width = 74 ∧ g.height = 64 ∧
        ∀ y, y < 64 → getPixel g 40 y = getPixel s2.image 8 y) := by
  have main : ∀ (shreds : List Shred) (H : Nat), shreds ≠ [] →
      (∀ s ∈ shreds, s.image.WF) → (∀ s ∈ shreds, s.image.height = H) →
      ∃ g, glue shreds = some g ∧
        g.width = ((shreds.map Shred.width).sum) ∧ g.height = H ∧
        ∀ i (hi : i < shreds.length) (dx y : Nat),
          dx < (shreds.get ⟨i, hi⟩).width → y < H →
          getPixel g ((((shreds.take i).map Shred.width).sum) + dx) y =
            getPixel (shreds.get ⟨i, hi⟩).image dx y := by
    intro shreds H hne hwf hh
    obtain ⟨s0, rest, rfl⟩ := List.exists_cons_of_ne_nil hne
    have hH0 : s0.height = H := hh s0 (List.mem_cons_self _ _)
    obtain ⟨ha, hb⟩ := glueAux_pix (s0 :: rest)
      (newImage (((s0 :: rest).map Shred.width).sum) s0.height) 0
      (by simp [newImage])
      (by
        intro row hr
        rw [List.eq_of_mem_replicate hr]
        simp [newImage])
      (by
        intro t ht
        refine ⟨hwf t ht, ?_⟩
        rw [hh t ht]
        show H = s0.height
        rw [hH0])
      (by simp [newImage])
    refine ⟨glueAux (newImage (((s0 :: rest).map Shred.width).sum) s0.height) 0 (s0 :: rest),
      rfl, ?_, ?_, ?_⟩
    · rw [glueAux_width]
      rfl
    · rw [glueAux_height]
      exact hH0
    · intro i hi dx y hdx hy
      have hy2 : y < (newImage (((s0 :: rest).map Shred.width).sum) s0.height).height := by
        show y < s0.height
        rw [hH0]
        exact hy
      have := hb i hi dx y hdx hy2
      simpa using this
  refine ⟨main, ?_⟩
  intro s1 s2 s3 h1 h2 h3 hw1 hw2 hw3 hh1 hh2 hh3
  obtain ⟨g, hg, hgw, hgh, hpix⟩ := main [s1, s2, s3] 64 (by simp)
    (by
      intro t ht
      rcases List.mem_cons.mp ht with rfl | ht
      · exact h1
      rcases List.mem_cons.mp ht with rfl | ht
      · exact h2
      rcases List.mem_cons.mp ht with rfl | ht
      · exact h3
      · simp at ht)
    (by
      intro t ht
      rcases List.mem_cons.mp ht with rfl | ht
      · exact hh1
      rcases List.mem_cons.mp ht with rfl | ht
      · exact hh2
      rcases List.mem_cons.mp ht with rfl | ht
      · exact hh3
      · simp at ht)
  refine ⟨g, hg, ?_, hgh, ?_⟩
  · rw [hgw]
    simp [List.map_cons, List.sum_cons, hw1, hw2, hw3]
  · intro y hy
    have hdx : (8 : Nat) < ([s1, s2, s3].get ⟨1, by simp⟩).width := by
      show (8 : Nat) < s2.width
      rw [hw2]
      norm_num
    have := hpix 1 (by simp) 8 y hdx hy
    have hoff : ((([s1, s2, s3].take 1).map Shred.width).sum) + 8 = 40 := by
      simp [hw1]
    rw [hoff] at this
    exact this

end Unshredder

namespace Unshredder

/-- Concrete 40-pixel-wide, 1-tall grid: 40 is not a multiple of 32. -/
def gridC5 : PixelGrid := ⟨40, 1, [List.replicate 40 ((0:ℤ), 0, 0, 255)]⟩

/-- Witness for C5 on the 40-wide grid: the splitter makes shreds at keys 0
and 32, and the final one is the narrower 40 mod 32 = 8 columns wide. -/
theorem split_partition_witness :
    gridC5.width % 32 ≠ 0 ∧
    (((split gridC5).map (fun p => p.2.width)).getD ((split gridC5).length - 1) 0 =
      gridC5.width % 32 ∧ gridC5.width % 32 < 32) :=
  ⟨by decide, (split_partition gridC5).2.2.2.2.2.1 (by decide)⟩

/-- Solid-color grid used by the compositor witness. -/
def gridG (w h : Nat) (c : ℤ) : PixelGrid :=
  ⟨w, h, List.replicate h (List.replicate w (c, c, c, 255))⟩

/-- First 32 × 64 witness shred. -/
def shredG1 : Shred := ⟨gridG 32 64 1, [], []⟩

/-- Second 32 × 64 witness shred. -/
def shredG2 : Shred := ⟨gridG 32 64 2, [], []⟩

/-- Third, narrower 10 × 64 witness shred. -/
def shredG3 : Shred := ⟨gridG 10 64 3, [], []⟩

/-- Witness for C8 on concrete shreds of widths 32, 32, 10 and height 64. -/
theorem glue_spec_witness :
    shredG1.image.WF ∧ shredG2.image.WF ∧ shredG3.image.WF ∧
    shredG1.width = 32 ∧ shredG2.width = 32 ∧ shredG3.width = 10 ∧
    shredG1.image.height = 64 ∧ shredG2.image.height = 64 ∧ shredG3.image.height = 64 ∧
    (∃ g, glue [shredG1, shredG2, shredG3] = some g ∧ g.width = 74 ∧ g.height = 64 ∧
      ∀ y, y < 64 → getPixel g 40 y = getPixel shredG2.image 8 y) :=
  ⟨by decide, by decide, by decide, rfl, rfl, rfl, rfl, rfl, rfl,
    glue_spec.2 shredG1 shredG2 shredG3 (by decide) (by decide) (by decide)
      rfl rfl rfl rfl rfl rfl⟩

end Unshredder
